import Mathlib

/-!
Verification development for the amadaily repository.

The Python sources (parse_timesheet.py, parse_job_sheet.py, combine_parsers.py)
are shallowly embedded below.  Pure helper functions become Lean functions on
`List Char` / `String`; the pandas data frames become lists of records; machine
floats for hour totals and similarity scores become exact rationals (the
quantities involved are small sums and ratios of small integers, far away from
any binary rounding boundary); external collaborators (pandas date parsing,
dateutil, the file system lock state) become explicit function parameters.
Python names keep their snake_case spelling with the leading underscore dropped.
-/

deriving instance DecidableEq for Except

namespace AmaDaily

/-! ### Python string primitives -/

/-- The whitespace characters recognised by Python `str.strip` / `str.split`
for the ASCII range handled by this code base. -/
def isPyWs (c : Char) : Bool :=
  c == ' ' || c == '\t' || c == '\n' || c == '\r' || c == '\x0b' || c == '\x0c'

/-- Python `s.lstrip(chars)` on a character class. -/
def pyStripL (p : Char → Bool) (s : List Char) : List Char :=
  s.dropWhile p

/-- Python `s.rstrip(chars)` on a character class. -/
def pyStripR (p : Char → Bool) (s : List Char) : List Char :=
  (s.reverse.dropWhile p).reverse

/-- Python `s.strip(chars)` on a character class: drop from both ends. -/
def pyStrip (p : Char → Bool) (s : List Char) : List Char :=
  pyStripR p (pyStripL p s)

/-- Python `str.lower` (ASCII). -/
def pyLower (s : List Char) : List Char :=
  s.map Char.toLower

/-- Python `" ".join(words)`. -/
def joinSpace : List (List Char) → List Char
  | [] => []
  | [w] => w
  | w :: ws => w ++ ' ' :: joinSpace ws

/-- One step of Python `str.split()` (split on whitespace runs, dropping empty
parts).  The fuel argument bounds the number of produced words; it is
initialised with the length of the string, which always suffices because every
word consumes at least one character. -/
def pySplitWsGo : Nat → List Char → List (List Char)
  | _, [] => []
  | 0, _ => []
  | fuel + 1, s =>
    match s.dropWhile isPyWs with
    | [] => []
    | c :: rest =>
      (c :: rest).takeWhile (fun x => !isPyWs x) ::
        pySplitWsGo fuel ((c :: rest).dropWhile (fun x => !isPyWs x))

/-- Python `str.split()` with no separator argument. -/
def pySplitWs (s : List Char) : List (List Char) :=
  pySplitWsGo s.length s

/-! ### Job-name normalizer (combine_parsers._norm_job) -/

/-- Embedding of `combine_parsers._norm_job`: `str(job).strip().strip(',')`,
return `""` when the result is falsy, otherwise collapse internal whitespace
via `" ".join(s.split())` and lower-case. -/
def norm_job (job : Option String) : String :=
  match job with
  | none => ""
  | some j =>
    let s := pyStrip (fun c => c == ',') (pyStrip isPyWs j.data)
    if s = [] then "" else String.mk (pyLower (joinSpace (pySplitWs s)))

/-- Whitespace-run collapsing written directly from the words of the spec
(one pass, a pending-whitespace flag); leading whitespace is removed before
the pass starts and a trailing run is never flushed. -/
def collapseGo : List Char → Bool → List Char
  | [], _ => []
  | c :: rest, pend =>
    if isPyWs c then collapseGo rest true
    else if pend then ' ' :: c :: collapseGo rest false
    else c :: collapseGo rest false

/-- Collapse every internal whitespace run to a single space. -/
def collapseWsSpec (s : List Char) : List Char :=
  collapseGo (s.dropWhile isPyWs) false

/-- Normalizer written from the spec sentence of claim C4: trim, strip
TRAILING commas only, collapse internal whitespace runs, lower-case. -/
def norm_job_spec (job : Option String) : String :=
  match job with
  | none => ""
  | some j =>
    String.mk (pyLower (collapseWsSpec (pyStripR (fun c => c == ',')
      (pyStrip isPyWs j.data))))

/-- Normalizer written from the amended sentence: trim, strip commas from BOTH
ends, collapse internal whitespace runs, lower-case. -/
def norm_job_spec_amended (job : Option String) : String :=
  match job with
  | none => ""
  | some j =>
    String.mk (pyLower (collapseWsSpec (pyStrip (fun c => c == ',')
      (pyStrip isPyWs j.data))))

/-! ### Truck-id normalization (parse_job_sheet._normalize_trucks) -/

/-- Python `", ".join(parts)`. -/
def joinCS : List (List Char) → List Char
  | [] => []
  | [p] => p
  | p :: ps => p ++ ',' :: ' ' :: joinCS ps

/-- Fixed-width segmentation `[s[i:i+width] for i in range(0, len(s), width)]`.
The fuel starts at the length of the string, which suffices for any positive
width because every step consumes at least one character. -/
def chunksGo : Nat → Nat → List Char → List (List Char)
  | _, _, [] => []
  | 0, _, s => [s]
  | fuel + 1, w, s => s.take w :: chunksGo fuel w (s.drop w)

def chunksBy (w : Nat) (s : List Char) : List (List Char) :=
  chunksGo s.length w s

/-- The condition under which `_normalize_trucks` accepts width `w`:
the length divides evenly into at least two groups and no group strips to
nothing when leading zeros are removed (`part.lstrip('0')` is truthy). -/
def segOK (s : List Char) (w : Nat) : Bool :=
  s.length % w == 0 && 2 ≤ s.length / w &&
    (chunksBy w s).all (fun p => !(p.dropWhile (fun c => c == '0')).isEmpty)

/-- One fixed-width attempt of the numeric heuristic. -/
def segTry (s : List Char) (w : Nat) : Option (List Char) :=
  if segOK s w then some (joinCS (chunksBy w s)) else none

/-- `re.findall(r"[A-Za-z]*\d+[A-Za-z]*", s)`: scan left to right; a match can
start at position `p` exactly when the maximal letter run starting at `p` is
followed by a digit; the match then greedily takes letters, digits, letters.
The fuel starts at the length of the string (each step consumes at least one
character). -/
def findTokensGo : Nat → List Char → List (List Char)
  | _, [] => []
  | 0, _ => []
  | fuel + 1, c :: rest =>
    if c.isDigit then
      let ds := (c :: rest).takeWhile Char.isDigit
      let r1 := (c :: rest).dropWhile Char.isDigit
      let ls := r1.takeWhile Char.isAlpha
      let r2 := r1.dropWhile Char.isAlpha
      (ds ++ ls) :: findTokensGo fuel r2
    else if c.isAlpha then
      let ls := (c :: rest).takeWhile Char.isAlpha
      let r1 := (c :: rest).dropWhile Char.isAlpha
      match r1 with
      | [] => []
      | d :: r1t =>
        if d.isDigit then
          let ds := (d :: r1t).takeWhile Char.isDigit
          let r2 := (d :: r1t).dropWhile Char.isDigit
          let ls2 := r2.takeWhile Char.isAlpha
          let r3 := r2.dropWhile Char.isAlpha
          (ls ++ ds ++ ls2) :: findTokensGo fuel r3
        else
          findTokensGo fuel (d :: r1t)
    else
      findTokensGo fuel rest

def findTokens (s : List Char) : List (List Char) :=
  findTokensGo s.length s

/-- Embedding of `parse_job_sheet._normalize_trucks` on character lists. -/
def normalize_trucks_chars (s : List Char) : List Char :=
  if s.isEmpty then s
  else if [',', ' ', '/', '-'].any (fun d => s.contains d) then s
  else
    let seg : Option (List Char) :=
      if s.all Char.isDigit && 6 ≤ s.length then
        (segTry s 3).orElse fun _ => (segTry s 4).orElse fun _ => segTry s 2
      else none
    match seg with
    | some r => r
    | none =>
      let toks := findTokens s
      if 1 < toks.length && decide (toks.flatten = s) then joinCS toks else s

/-- Embedding of `parse_job_sheet._normalize_trucks` on strings. -/
def normalize_trucks (s : String) : String :=
  String.mk (normalize_trucks_chars s.data)

/-! ### Locked-output retry (parse_timesheet.process_timesheet, write phase) -/

/-- Index of the last occurrence of `c` in `s`, `-1` when absent
(Python `str.rfind`). -/
def rfindIdx (c : Char) (s : List Char) : Int :=
  s.enum.foldl (fun acc ix => if ix.2 == c then (ix.1 : Int) else acc) (-1)

/-- `os.path.splitext`: split at the last dot of the base name, unless every
character between the last separator and that dot is itself a dot. -/
def splitextChars (p : List Char) : List Char × List Char :=
  let sepIdx : Int := max (rfindIdx '/' p) (rfindIdx '\\' p)
  let dotIdx : Int := rfindIdx '.' p
  if sepIdx < dotIdx then
    let mid := (p.take dotIdx.toNat).drop (sepIdx + 1).toNat
    if mid.any (fun c => !(c == '.')) then
      (p.take dotIdx.toNat, p.drop dotIdx.toNat)
    else (p, [])
  else (p, [])

/-- `base + '_new' + ext`: the first retry path of the summary writer. -/
def alt_new_path (out : String) : String :=
  String.mk ((splitextChars out.data).1 ++ "_new".data ++ (splitextChars out.data).2)

/-- `base + '_daily_summary.csv'`: the second retry path of the summary
writer. -/
def alt_csv_path (out : String) : String :=
  String.mk ((splitextChars out.data).1 ++ "_daily_summary.csv".data)

/-- Embedding of the summary write at the end of `process_timesheet`.
`locked p` models "writing to `p` raises `PermissionError`".  The nested
try/except chain writes to the original path, then to the `_new` variant,
then to a CSV side path; a third failure propagates. -/
def summary_write_path (locked : String → Bool) (out_xlsx : String) :
    Except String String :=
  if locked out_xlsx = false then Except.ok out_xlsx
  else if locked (alt_new_path out_xlsx) = false then Except.ok (alt_new_path out_xlsx)
  else if locked (alt_csv_path out_xlsx) = false then Except.ok (alt_csv_path out_xlsx)
  else Except.error "PermissionError"

/-! ### Date resolver (parse_timesheet.parse_date_label) -/

structure PyDate where
  year : Nat
  month : Nat
  day : Nat
deriving DecidableEq

/-- A spreadsheet cell as seen by the timesheet parser: missing (`NaN`),
text, or an already-structured date value. -/
inductive Cell where
  | na : Cell
  | str : String → Cell
  | dateVal : Nat → Nat → Nat → Cell
deriving DecidableEq

def isLeapYear (y : Nat) : Bool :=
  y % 4 == 0 && (y % 100 != 0 || y % 400 == 0)

def daysInMonth (y m : Nat) : Nat :=
  if m == 2 then (if isLeapYear y then 29 else 28)
  else if m == 4 || m == 6 || m == 9 || m == 11 then 30
  else 31

/-- `datetime(yr, mon, day)` succeeds exactly on calendar-valid dates with
year in `1..9999`; on failure the resolver falls through. -/
def mkValidDate (y m d : Nat) : Option PyDate :=
  if 1 ≤ y && y ≤ 9999 && 1 ≤ m && m ≤ 12 && 1 ≤ d && d ≤ daysInMonth y m
  then some ⟨y, m, d⟩ else none

def digitsToNat (ds : List Char) : Nat :=
  ds.foldl (fun acc c => acc * 10 + (c.toNat - 48)) 0

def sepChar (c : Char) : Bool := c == '/' || c == '-'

/-- Attempt the timesheet date pattern (month digits, a dash or slash, day
digits, optionally another dash or slash followed by a 2- to 4-digit year)
anchored at the start of `s`, with the greedy/backtracking behaviour of the
Python regex engine: two month digits are preferred over one, the day takes up
to two digits, and the optional year group matches only when a separator is
followed by at least two digits (then takes up to four). -/
def tryMDY (s : List Char) : Option (Nat × Nat × Option Nat) :=
  let tryMonth : Nat → Option (Nat × Nat × Option Nat) := fun n =>
    let mds := s.take n
    if mds.length = n && mds.all Char.isDigit then
      match s.drop n with
      | [] => none
      | sep :: rest =>
        if sepChar sep then
          let drun := rest.takeWhile Char.isDigit
          if drun.isEmpty then none
          else
            let dds := rest.take (min 2 drun.length)
            let after := rest.drop (min 2 drun.length)
            let yr : Option Nat :=
              match after with
              | [] => none
              | sep2 :: rest2 =>
                if sepChar sep2 then
                  let yrun := rest2.takeWhile Char.isDigit
                  if 2 ≤ yrun.length then
                    some (digitsToNat (rest2.take (min 4 yrun.length)))
                  else none
                else none
            some (digitsToNat mds, digitsToNat dds, yr)
        else none
    else none
  (tryMonth 2).orElse fun _ => tryMonth 1

/-- `re.search`: try the pattern at every position, left to right. -/
def regexSearchMDY : List Char → Option (Nat × Nat × Option Nat)
  | [] => none
  | c :: rest => (tryMDY (c :: rest)).orElse fun _ => regexSearchMDY rest

/-- Embedding of the inner helper `parse_date_label` of
`parse_timesheet.process_timesheet`.  `pdParse` stands for the external
pandas general-purpose text parser (`errors="coerce"`, so failures are `none`)
and `duParse` for the external dateutil fallback seeded with January 1 of the
default year; `nowYear` is the current calendar year. -/
def parse_date_label (pdParse : String → Option PyDate)
    (duParse : Nat → String → Option PyDate) (nowYear : Nat) (cell : Cell) :
    Option PyDate :=
  match cell with
  | Cell.na => none
  | Cell.dateVal y m d => some ⟨y, m, d⟩
  | Cell.str s =>
    let text := String.mk (pyStrip isPyWs s.data)
    if text = "" then none
    else
      match pdParse text with
      | some dt => some dt
      | none =>
        match regexSearchMDY text.data with
        | some (mon, day, yrOpt) =>
          let yr := match yrOpt with
            | some y => if y < 100 then y + 2000 else y
            | none => nowYear
          match mkValidDate yr mon day with
          | some dt => some dt
          | none => duParse nowYear text
        | none => duParse nowYear text

/-! ### Timesheet extraction (parse_timesheet.process_timesheet) -/

def isNa : Cell → Bool
  | Cell.na => true
  | _ => false

def natDigits (n : Nat) : List Char := (toString n).data

def pad2 (n : Nat) : List Char :=
  if n < 10 then '0' :: natDigits n else natDigits n

def pad4 (n : Nat) : List Char :=
  List.replicate (4 - (natDigits n).length) '0' ++ natDigits n

/-- `str(cell)` as the pandas code sees it: `NaN` stringifies to "nan" and a
Timestamp to "YYYY-MM-DD 00:00:00". -/
def pyStrCell : Cell → String
  | Cell.na => "nan"
  | Cell.str s => s
  | Cell.dateVal y m d =>
    String.mk (pad4 y ++ '-' :: (pad2 m ++ '-' :: (pad2 d ++ " 00:00:00".data)))

/-- The sheet as an untyped grid; reads outside the frame give `NaN`. -/
abbrev Grid := List (List Cell)

def getCell (g : Grid) (r c : Nat) : Cell :=
  match g[r]? with
  | none => Cell.na
  | some row => (row[c]?).getD Cell.na

def nRows (g : Grid) : Nat := g.length

def nCols (g : Grid) : Nat := (g.map List.length).foldr Nat.max 0

/-- `df.iloc[i].astype(str).fillna("").str.strip()`. -/
def rowLabels (g : Grid) (i : Nat) : List String :=
  ((g[i]?).getD []).map (fun c => String.mk (pyStrip isPyWs (pyStrCell c).data))

/-- Does row `i` contain a cell whose stripped, lowered text starts with
"employee"? -/
def rowHasEmployee (g : Grid) (i : Nat) : Bool :=
  (rowLabels g i).any (fun s => "employee".data.isPrefixOf (pyLower s.data))

/-- Scan the first `min(15, nRows)` rows, first match wins. -/
def findHeaderRow (g : Grid) : Option Nat :=
  (List.range (min 15 (nRows g))).find? (rowHasEmployee g)

/-- Python substring test `needle in hay`. -/
def containsSeq (needle : List Char) : List Char → Bool
  | [] => needle.isEmpty
  | c :: rest => needle.isPrefixOf (c :: rest) || containsSeq needle rest

/-- Columns whose header label contains "trk" (case-insensitive). -/
def day_start_cols (header : List String) : List Nat :=
  (header.enum.filter
    (fun p => containsSeq "trk".data (pyLower p.2.data))).map (fun p => p.1)

/-- A non-empty first cell that does not start with "total". -/
def empRowOK (g : Grid) (r : Nat) : Bool :=
  let v := getCell g r 0
  !isNa v &&
    (let t := pyStrip isPyWs (pyStrCell v).data
     !t.isEmpty && !("total".data.isPrefixOf (pyLower t)))

/-- First employee row below the header, defaulting to the row right below. -/
def first_emp_row (g : Grid) (hdr : Nat) : Nat :=
  match (List.range' (hdr + 1) (nRows g - (hdr + 1))).find? (empRowOK g) with
  | some r => r
  | none => hdr + 1

/-- Scan the five columns of a day block (stopping early at the grid edge or
at the next "trk" header) for the job, hours, and driving sub-columns; the
first matching label wins for each. -/
def blockColsGo (header : List String) (day : Nat) :
    List Nat → Option Nat → Option Nat → Option Nat →
    Option Nat × Option Nat × Option Nat
  | [], jc, hc, dcol => (jc, hc, dcol)
  | off :: offs, jc, hc, dcol =>
    let c := day + off
    if header.length ≤ c then (jc, hc, dcol)
    else
      let label := pyLower (pyStrip isPyWs ((header.getD c "").data))
      if 0 < off && "trk".data.isPrefixOf label then (jc, hc, dcol)
      else
        let jc' := if jc.isNone && "job".data.isPrefixOf label then some c else jc
        let hc' := if hc.isNone && "h".data.isPrefixOf label then some c else hc
        let dc' := if dcol.isNone &&
            (label == "d".data || "drive".data.isPrefixOf label)
          then some c else dcol
        blockColsGo header day offs jc' hc' dc'

def blockCols (header : List String) (day : Nat) :
    Option Nat × Option Nat × Option Nat :=
  blockColsGo header day [0, 1, 2, 3, 4] none none none

/-- First numeric token of a string: the pattern one-or-more digits optionally
followed by a dot and one-or-more digits, searched left to right. -/
def firstNumber (s : List Char) : Option ℚ :=
  match s.dropWhile (fun c => !c.isDigit) with
  | [] => none
  | ds =>
    let ipart := ds.takeWhile Char.isDigit
    match ds.dropWhile Char.isDigit with
    | '.' :: r2 =>
      let fpart := r2.takeWhile Char.isDigit
      if fpart.isEmpty then some (mkRat (digitsToNat ipart) 1)
      else some (mkRat (digitsToNat ipart * 10 ^ fpart.length + digitsToNat fpart)
        (10 ^ fpart.length))
    | _ => some (mkRat (digitsToNat ipart) 1)

/-- Hours from a cell: 0 when the cell is missing, blank, or has no numeric
token. -/
def parseHours (cell : Cell) : ℚ :=
  if isNa cell then 0
  else if (pyStrip isPyWs (pyStrCell cell).data).isEmpty then 0
  else match firstNumber (pyStrCell cell).data with
    | some q => q
    | none => 0

/-- Fullmatch of "column", optional whitespace, digits (case-insensitive). -/
def placeholderColumnNum (s : List Char) : Bool :=
  let l := pyLower s
  "column".data.isPrefixOf l &&
    (let rest := (l.drop 6).dropWhile isPyWs
     !rest.isEmpty && rest.all Char.isDigit)

def generic_job_tokens : List String := ["job", "job#", "job number", "column", "col"]

/-- Embedding of `parse_timesheet._is_placeholder_job`. -/
def is_placeholder_job (value : Option String) : Bool :=
  match value with
  | none => true
  | some v =>
    let s := pyStrip isPyWs v.data
    if s.isEmpty then true
    else if placeholderColumnNum s then true
    else if generic_job_tokens.any (fun t => t.data == pyLower s) then true
    else false

structure TSRec where
  employee : String
  date : Option PyDate
  job : String
  hours : ℚ
  drivingHours : ℚ
  trk : Cell
deriving DecidableEq

/-- The normalized job text of one cell: `None` when the cell is missing,
blank, or a placeholder. -/
def jobText (g : Grid) (r jc : Nat) : Option String :=
  if isNa (getCell g r jc) then none
  else
    let jt := String.mk (pyStrip isPyWs (pyStrCell (getCell g r jc)).data)
    if !jt.data.isEmpty && !(is_placeholder_job (some jt)) then some jt
    else none

/-- Driving hours: parsed only when the block has a driving column. -/
def driveHours (g : Grid) (r : Nat) : Option Nat → ℚ
  | some dcol => parseHours (getCell g r dcol)
  | none => 0

/-- The stripped text of the employee cell. -/
def empText (g : Grid) (r : Nat) : String :=
  String.mk (pyStrip isPyWs (pyStrCell (getCell g r 0)).data)

/-- The per-(employee row, day block) body of the extraction loop: skip
missing/blank/total employee cells; take the job text unless missing, blank,
or a placeholder; parse work and driving hours; emit a record only when a job
is present and not both hours are zero. -/
def empRecord (g : Grid) (incl : Bool) (theDate : Option PyDate)
    (day jc hc : Nat) (dcOpt : Option Nat) (r : Nat) : Option TSRec :=
  if isNa (getCell g r 0) then none
  else if (empText g r).data.isEmpty ||
      "total".data.isPrefixOf (pyLower (empText g r).data) then none
  else
    match jobText g r jc with
    | none => none
    | some jt =>
      if parseHours (getCell g r hc) == 0 && driveHours g r dcOpt == 0 then none
      else
        some { employee := empText g r, date := theDate,
               job := String.mk (pyStrip isPyWs jt.data),
               hours := parseHours (getCell g r hc) +
                 (if incl then driveHours g r dcOpt else 0),
               drivingHours := driveHours g r dcOpt,
               trk := if day < nCols g then getCell g r day else Cell.na }

/-- The date fallback scan over neighbouring columns. -/
def fbScan (pdP : String → Option PyDate) (duP : Nat → String → Option PyDate)
    (ny : Nat) (g : Grid) (r day : Nat) : List Int → Option PyDate
  | [] => none
  | adj :: rest =>
    let c : Int := (day : Int) + adj
    if 0 ≤ c ∧ c < (nCols g : Int) then
      match parse_date_label pdP duP ny (getCell g r c.toNat) with
      | some d => some d
      | none => fbScan pdP duP ny g r day rest
    else fbScan pdP duP ny g r day rest

/-- The date of a day block.  When the header is row 0 there is no date label
row; the first parse then yields `None` and the fallback loop evaluates
`df.iat[None, c]` for the first in-bounds neighbour column, raising a
`TypeError`. -/
def blockDate (pdP : String → Option PyDate) (duP : Nat → String → Option PyDate)
    (ny : Nat) (g : Grid) (dlr : Option Nat) (day : Nat) :
    Except String (Option PyDate) :=
  match dlr with
  | some r =>
    match parse_date_label pdP duP ny (getCell g r day) with
    | some d => Except.ok (some d)
    | none => Except.ok (fbScan pdP duP ny g r day [-1, 1, 2, -2])
  | none =>
    if ([-1, 1, 2, -2] : List Int).any (fun adj =>
        decide (0 ≤ (day : Int) + adj) && decide ((day : Int) + adj < (nCols g : Int)))
    then Except.error "TypeError: iat with None row"
    else Except.ok none

/-- All records of one day block; a block missing its job or hours column is
skipped entirely. -/
def blockRecords (pdP : String → Option PyDate) (duP : Nat → String → Option PyDate)
    (ny : Nat) (g : Grid) (header : List String) (dlr : Option Nat)
    (femp : Nat) (incl : Bool) (day : Nat) : Except String (List TSRec) :=
  match blockCols header day with
  | (some jc, some hc, dcOpt) =>
    match blockDate pdP duP ny g dlr day with
    | Except.error e => Except.error e
    | Except.ok theDate =>
      Except.ok ((List.range' femp (nRows g - femp)).filterMap
        (empRecord g incl theDate day jc hc dcOpt))
  | _ => Except.ok []

/-- Embedding of the record-extraction phase of
`parse_timesheet.process_timesheet` (steps 3 through 9 of the source). -/
def timesheetRecords (pdP : String → Option PyDate)
    (duP : Nat → String → Option PyDate) (ny : Nat) (g : Grid) (incl : Bool) :
    Except String (List TSRec) :=
  match findHeaderRow g with
  | none => Except.error "header row with Employee not found"
  | some hdr =>
    let header := rowLabels g hdr
    let days := day_start_cols header
    if days.isEmpty then Except.error "no Trk column in header"
    else
      let dlr : Option Nat := if 0 < hdr then some (hdr - 1) else none
      let femp := first_emp_row g hdr
      match days.mapM (blockRecords pdP duP ny g header dlr femp incl) with
      | Except.error e => Except.error e
      | Except.ok ls =>
        if ls.flatten.isEmpty then Except.error "No records parsed."
        else Except.ok ls.flatten

/-- The record emitted from the one-employee sample grid. -/
def c3SampleRec : TSRec :=
  { employee := "J Smith", date := some ⟨2025, 9, 8⟩, job := "ARA3A",
    hours := 8, drivingHours := 1, trk := Cell.str "100" }

/-! ### difflib similarity (SequenceMatcher without junk) -/

/-- Length of the common prefix of two character lists. -/
def cpl : List Char → List Char → Nat
  | a :: as, b :: bs => if a = b then cpl as bs + 1 else 0
  | _, _ => 0

/-- `find_longest_match` over the whole sequences, with no junk (difflib's
autojunk only activates for sequences of 200 or more elements, far above the
job keys handled here): the longest matching block, earliest in `a` and then
earliest in `b` on ties. -/
def flm (a b : List Char) : Nat × Nat × Nat :=
  (List.range (a.length + 1)).foldl (fun best i =>
    (List.range (b.length + 1)).foldl (fun best j =>
      let k := cpl (a.drop i) (b.drop j)
      if best.2.2 < k then (i, j, k) else best) best) (0, 0, 0)

/-- Total size of the matching blocks (`get_matching_blocks`): recurse left
and right of the chosen longest block.  The fuel bounds the recursion depth;
the sum of lengths shrinks at every level, so the initial fuel suffices. -/
def matchTotalGo : Nat → List Char → List Char → Nat
  | 0, _, _ => 0
  | fuel + 1, a, b =>
    match flm a b with
    | (i, j, k) =>
      if k = 0 then 0
      else matchTotalGo fuel (a.take i) (b.take j) + k +
        matchTotalGo fuel (a.drop (i + k)) (b.drop (j + k))

def matchTotal (a b : List Char) : Nat :=
  matchTotalGo (a.length + b.length) a b

/-- `SequenceMatcher(None, a, b).ratio() >= 0.82` as the exact rational test
2*M/(len a + len b) >= 82/100, i.e. 100*M >= 41*(len a + len b); the
real_quick_ratio and quick_ratio pre-checks of `get_close_matches` are upper
bounds of ratio, so the conjunction of the three cutoff tests is equivalent
to this single one. -/
def ratioGE (a b : List Char) : Bool :=
  41 * (a.length + b.length) ≤ 100 * matchTotal a b

/-- Ordering used by `heapq.nlargest` on (ratio, string) pairs, descending:
higher ratio first, ties by string descending. -/
def closeBefore (w : List Char) (x y : String) : Prop :=
  matchTotal y.data w * (x.data.length + w.length) <
      matchTotal x.data w * (y.data.length + w.length)
  ∨ (matchTotal y.data w * (x.data.length + w.length) =
      matchTotal x.data w * (y.data.length + w.length) ∧ y ≤ x)

instance (w : List Char) : DecidableRel (closeBefore w) := fun x y => by
  unfold closeBefore
  infer_instance

/-- `difflib.get_close_matches(word, possibilities, n=2, cutoff=0.82)`:
keep the possibilities whose ratio clears the cutoff, best two first. -/
def get_close_matches2 (word : String) (cands : List String) : List String :=
  ((cands.filter (fun x => ratioGE x.data word.data)).insertionSort
    (closeBefore word.data)).take 2

/-! ### Reconciliation engine (combine_parsers.combine_daily_reports) -/

/-- A row of the timesheet daily summary (Date already coerced). -/
structure TSRow where
  date : Nat
  job : String
  employeeCount : Nat
  totalHours : ℚ
  totalDrivingHours : ℚ
  employees : String
deriving DecidableEq

/-- A row of the normalized job sheet table. -/
structure JSRow where
  date : Nat
  job : String
  trucks : String
  description : String
  concrete : String
  concreteYds : String
  stone : String
  stoneLds : String
deriving DecidableEq

/-- A timesheet row with its `_CanonicalJob` column. -/
structure PrepTS where
  base : TSRow
  canon : String
deriving DecidableEq

/-- A job sheet row with its `_CanonicalJob` column. -/
structure PrepJS where
  base : JSRow
  canon : String
deriving DecidableEq

def PrepTS.date (r : PrepTS) : Nat := r.base.date

def PrepJS.date (r : PrepJS) : Nat := r.base.date

/-- `_prepare_timesheet_df`: add the canonical job key. -/
def prepTS (r : TSRow) : PrepTS := ⟨r, norm_job (some r.job)⟩

/-- `_prepare_job_sheet_df`: add the canonical job key. -/
def prepJS (r : JSRow) : PrepJS := ⟨r, norm_job (some r.job)⟩

/-- `pandas.unique`: first occurrences, in order. -/
def dedupF (seen : List String) : List String → List String
  | [] => []
  | x :: xs => if x ∈ seen then dedupF seen xs else x :: dedupF (x :: seen) xs

/-- The unique right-side canonical jobs of one date (the per-date index the
fuzzy pass builds with groupby + unique). -/
def byDate (jsp : List PrepJS) (d : Nat) : List String :=
  dedupF [] ((jsp.filter (fun r => r.date == d)).map (fun r => r.canon))

/-- Membership of `(d, k)` in the right side's exact key set. -/
def hasExact (jsp : List PrepJS) (d : Nat) (k : String) : Bool :=
  jsp.any (fun r => r.date == d && r.canon == k)

/-- The remap `_fuzzy_reconcile` would record for the left pair `(d, k)`:
skip exact matches and dates with no right rows, then accept the single
close match if and only if exactly one candidate clears the cutoff. -/
def fuzzyCandidate (jsp : List PrepJS) (d : Nat) (k : String) : Option String :=
  if hasExact jsp d k then none
  else
    match byDate jsp d with
    | [] => none
    | cs =>
      match get_close_matches2 k cs with
      | [c] => some c
      | _ => none

/-- The mapping dict built by `_fuzzy_reconcile`, one entry per left row with
an accepted remap (duplicate keys carry identical values, so the dict
overwrite is order-independent). -/
def fuzzyMapping : List PrepTS → List PrepJS → List ((Nat × String) × String)
  | [], _ => []
  | row :: rest, jsp =>
    match fuzzyCandidate jsp row.date row.canon with
    | some c => ((row.date, row.canon), c) :: fuzzyMapping rest jsp
    | none => fuzzyMapping rest jsp

def alookup : List ((Nat × String) × String) → Nat × String → Option String
  | [], _ => none
  | (k, v) :: rest, q => if q = k then some v else alookup rest q

/-- `mapping.get(key, row canon)` applied over the left column, guarded by
`if mapping:` as in the source. -/
def fuzzyApply (tsp : List PrepTS) (jsp : List PrepJS) : List PrepTS :=
  if (fuzzyMapping tsp jsp).isEmpty then tsp
  else tsp.map (fun row =>
    { row with canon := (alookup (fuzzyMapping tsp jsp) (row.date, row.canon)).getD row.canon })

/-- The fuzzy phase of `combine_daily_reports` acting on the prepared pair of
tables: only the left canonical keys are reassigned. -/
def fuzzyStep (fuzzy : Bool) (tsp : List PrepTS) (jsp : List PrepJS) :
    List PrepTS × List PrepJS :=
  if fuzzy then (fuzzyApply tsp jsp, jsp) else (tsp, jsp)

/-- One row of the outer merge on (Date, _CanonicalJob). -/
structure MergedRow where
  date : Nat
  canon : String
  tsRow : Option PrepTS
  jsRow : Option PrepJS
deriving DecidableEq

/-- `pd.merge(how="outer", on=["Date", "_CanonicalJob"])`: every left row
paired with each matching right row (or alone), then the right-only rows. -/
def mergeOuter (L : List PrepTS) (R : List PrepJS) : List MergedRow :=
  (L.flatMap (fun l =>
    match R.filter (fun r => r.date == l.date && r.canon == l.canon) with
    | [] => [{ date := l.date, canon := l.canon, tsRow := some l, jsRow := none }]
    | ms => ms.map (fun r =>
        { date := l.date, canon := l.canon, tsRow := some l, jsRow := some r })))
  ++ ((R.filter (fun r =>
        !(L.any (fun l => l.date == r.date && l.canon == r.canon)))).map
      (fun r => { date := r.date, canon := r.canon, tsRow := none, jsRow := some r }))

/-- One row of the final report: the chosen display job plus both sides. -/
structure OutRow where
  job : Option String
  date : Nat
  tsRow : Option PrepTS
  jsRow : Option PrepJS
deriving DecidableEq

/-- `_choose_job`: prefer the job sheet's original text when non-blank. -/
def choose_job (m : MergedRow) : Option String :=
  match m.jsRow with
  | some r =>
    if !(pyStrip isPyWs r.base.job.data).isEmpty then some r.base.job
    else m.tsRow.map (fun l => l.base.job)
  | none => m.tsRow.map (fun l => l.base.job)

def finalizeRow (m : MergedRow) : OutRow :=
  { job := choose_job m, date := m.date, tsRow := m.tsRow, jsRow := m.jsRow }

/-- `final_df["Job"].astype(str).str.lower()`: a missing job renders as
"nan". -/
def jobSortKey (r : OutRow) : String :=
  String.mk (pyLower (match r.job with | some s => s | none => "nan").data)

def outKey (r : OutRow) : Lex (String × Nat) := toLex (jobSortKey r, r.date)

/-- The sort order of step 5: case-insensitive job text, then date. -/
def outLE (a b : OutRow) : Prop := outKey a ≤ outKey b

instance : DecidableRel outLE := fun a b => by
  unfold outLE
  infer_instance

instance : IsTotal OutRow outLE :=
  ⟨fun a b => le_total (outKey a) (outKey b)⟩

instance : IsTrans OutRow outLE :=
  ⟨fun _ _ _ hab hbc => le_trans hab hbc⟩

/-- The unified rows before the final sort: prepare both tables, apply the
optional fuzzy step, outer-merge, choose the display job. -/
def assembled (fuzzy : Bool) (ts : List TSRow) (js : List JSRow) : List OutRow :=
  let pair := fuzzyStep fuzzy (ts.map prepTS) (js.map prepJS)
  (mergeOuter pair.1 pair.2).map finalizeRow

/-- The unified daily report of `combine_daily_reports` (as a row list): the
final `sort_values(["_job_sort_key", "Date"], kind="stable")` is a stable
sort, whose output is uniquely determined, here realised by insertion
sort. -/
def combine_pipeline (fuzzy : Bool) (ts : List TSRow) (js : List JSRow) :
    List OutRow :=
  (assembled fuzzy ts js).insertionSort outLE

/-- The per-row effect of `_map_row`. -/
def remapRow (jsp : List PrepJS) (row : PrepTS) : PrepTS :=
  { row with canon := (fuzzyCandidate jsp row.date row.canon).getD row.canon }

/-- The prepared row of the C9 witness instance. -/
def c9Prep : PrepTS :=
  ⟨{ date := 10, job := "A", employeeCount := 1, totalHours := 0,
     totalDrivingHours := 0, employees := "X" }, "a"⟩

/-- The concrete rows of the ambiguous-fuzzy scenario. -/
def c1TSRow : TSRow :=
  { date := 10, job := "abcdef", employeeCount := 1, totalHours := 8,
    totalDrivingHours := 0, employees := "X" }

def c1JSRow1 : JSRow :=
  { date := 10, job := "abcdef1", trucks := "", description := "",
    concrete := "", concreteYds := "", stone := "", stoneLds := "" }

def c1JSRow2 : JSRow :=
  { date := 10, job := "abcdef2", trucks := "", description := "",
    concrete := "", concreteYds := "", stone := "", stoneLds := "" }

/-! Relating `" ".join(s.split())` to the single collapsing pass. -/

theorem dropWhile_length_le (p : Char → Bool) :
    ∀ s : List Char, (s.dropWhile p).length ≤ s.length := by
  intro s
  induction s with
  | nil => simp [List.dropWhile]
  | cons c cs ih =>
    rw [List.dropWhile_cons]
    by_cases hc : p c = true
    · rw [if_pos hc]
      exact Nat.le_trans ih (Nat.le_succ _)
    · rw [if_neg hc]

theorem head_dropWhile_false (p : Char → Bool) :
    ∀ (s : List Char) c rest, s.dropWhile p = c :: rest → p c = false := by
  intro s
  induction s with
  | nil => intro c rest h; simp [List.dropWhile] at h
  | cons a as ih =>
    intro c rest h
    rw [List.dropWhile_cons] at h
    by_cases ha : p a = true
    · simp only [ha, if_true] at h
      exact ih c rest h
    · simp only [ha, if_false] at h
      cases h
      cases hpa : p a
      · rfl
      · exact absurd hpa ha

theorem collapseGo_false_of_nonws {w : List Char} (hw : ∀ c ∈ w, isPyWs c = false) :
    ∀ r, collapseGo (w ++ r) false = w ++ collapseGo r false := by
  induction w with
  | nil => intro r; rfl
  | cons c cs ih =>
    intro r
    have hc : isPyWs c = false := hw c (List.mem_cons_self c cs)
    have hcs : ∀ x ∈ cs, isPyWs x = false := fun x hx => hw x (List.mem_cons_of_mem c hx)
    simp [collapseGo, hc, ih hcs r]

theorem collapseGo_true_eq (r : List Char) :
    collapseGo r true =
      match r.dropWhile isPyWs with
      | [] => []
      | c :: rest => ' ' :: collapseGo (c :: rest) false := by
  induction r with
  | nil => rfl
  | cons c cs ih =>
    by_cases hc : isPyWs c = true
    · simp [collapseGo, hc, List.dropWhile, ih]
    · have hc' : isPyWs c = false := by
        cases h : isPyWs c
        · rfl
        · exact absurd h hc
      simp [collapseGo, hc', List.dropWhile]

theorem collapseGo_false_ws_head (r : List Char)
    (h : r = [] ∨ ∃ c rest, r = c :: rest ∧ isPyWs c = true) :
    collapseGo r false = collapseGo r true := by
  rcases h with h | ⟨c, rest, rfl, hc⟩
  · subst h; rfl
  · simp [collapseGo, hc]

theorem takeWhile_not_ws (t : List Char) :
    ∀ c ∈ t.takeWhile (fun x => !isPyWs x), isPyWs c = false := by
  intro c hc
  have := List.mem_takeWhile_imp hc
  simpa using this

/-- After the leading whitespace of `r` is gone, `collapseGo r false` behaves
like `collapseGo r true` provided `r` is empty or starts with whitespace. -/
theorem collapseGo_remainder (r : List Char)
    (h : r = [] ∨ ∃ c rest, r = c :: rest ∧ isPyWs c = true) :
    collapseGo r false =
      match r.dropWhile isPyWs with
      | [] => []
      | c :: rest => ' ' :: collapseGo (c :: rest) false := by
  rw [collapseGo_false_ws_head r h, collapseGo_true_eq]

theorem joinSpace_pySplitWsGo (fuel : Nat) :
    ∀ s : List Char, s.length ≤ fuel →
      joinSpace (pySplitWsGo fuel s) = collapseGo (s.dropWhile isPyWs) false := by
  induction fuel with
  | zero =>
    intro s hs
    have : s = [] := List.eq_nil_of_length_eq_zero (Nat.le_zero.mp hs)
    subst this; rfl
  | succ fuel ih =>
    intro s hs
    match h : s.dropWhile isPyWs with
    | [] =>
      cases s with
      | nil => rfl
      | cons c cs => simp [pySplitWsGo, h, joinSpace, collapseGo]
    | c :: rest =>
      have hc : isPyWs c = false := head_dropWhile_false isPyWs s c rest h
      have hlen : (c :: rest).length ≤ s.length := by
        have := dropWhile_length_le isPyWs s
        rw [h] at this; exact this
      -- unfold the splitter
      have hsplit : pySplitWsGo (fuel + 1) s =
          (c :: rest).takeWhile (fun x => !isPyWs x) ::
            pySplitWsGo fuel ((c :: rest).dropWhile (fun x => !isPyWs x)) := by
        cases s with
        | nil => simp at h
        | cons a as => simp [pySplitWsGo, h]
      rw [hsplit]
      -- the word and the remainder of the first split step
      have hwr : (c :: rest).takeWhile (fun x => !isPyWs x) ++
          (c :: rest).dropWhile (fun x => !isPyWs x) = c :: rest := by
        simp [List.takeWhile_append_dropWhile]
      have hr2 : ((c :: rest).dropWhile (fun x => !isPyWs x)) =
          rest.dropWhile (fun x => !isPyWs x) := by
        rw [List.dropWhile_cons]
        simp [hc]
      have hlen2 : ((c :: rest).dropWhile (fun x => !isPyWs x)).length ≤ fuel := by
        have h1 : (rest.dropWhile (fun x => !isPyWs x)).length ≤ rest.length :=
          dropWhile_length_le _ rest
        have h2 : rest.length + 1 ≤ fuel + 1 :=
          Nat.le_trans (by simpa using hlen) hs
        rw [hr2]
        omega
      have ihr := ih _ hlen2
      -- the remainder is empty or starts with whitespace
      have hrem_shape : ((c :: rest).dropWhile (fun x => !isPyWs x)) = [] ∨
          ∃ d ds, ((c :: rest).dropWhile (fun x => !isPyWs x)) = d :: ds ∧
            isPyWs d = true := by
        match hu : (c :: rest).dropWhile (fun x => !isPyWs x) with
        | [] => exact Or.inl rfl
        | d :: ds =>
          refine Or.inr ⟨d, ds, rfl, ?_⟩
          have := head_dropWhile_false (fun x => !isPyWs x) (c :: rest) d ds hu
          simpa using this
      have hcol : collapseGo (c :: rest) false =
          (c :: rest).takeWhile (fun x => !isPyWs x) ++
            collapseGo ((c :: rest).dropWhile (fun x => !isPyWs x)) false := by
        have hw := takeWhile_not_ws (c :: rest)
        have := collapseGo_false_of_nonws hw ((c :: rest).dropWhile (fun x => !isPyWs x))
        rw [hwr] at this
        exact this
      rw [hcol, collapseGo_remainder _ hrem_shape]
      -- case on whether there are further words
      match hu : ((c :: rest).dropWhile (fun x => !isPyWs x)).dropWhile isPyWs with
      | [] =>
        have hnil : pySplitWsGo fuel ((c :: rest).dropWhile (fun x => !isPyWs x)) = [] := by
          cases hfu : fuel with
          | zero =>
            cases hv : (c :: rest).dropWhile (fun x => !isPyWs x) with
            | nil => simp [pySplitWsGo]
            | cons d ds => simp [pySplitWsGo]
          | succ f =>
            cases hv : (c :: rest).dropWhile (fun x => !isPyWs x) with
            | nil => simp [pySplitWsGo]
            | cons d ds =>
              rw [hv] at hu
              simp [pySplitWsGo, hu]
        simp [hnil, joinSpace]
      | d :: ds =>
        have hd : isPyWs d = false :=
          head_dropWhile_false isPyWs _ d ds hu
        rw [hu] at ihr
        match hsp : pySplitWsGo fuel ((c :: rest).dropWhile (fun x => !isPyWs x)) with
        | [] =>
          rw [hsp] at ihr
          exfalso
          have hz : collapseGo (d :: ds) false = [] := by rw [← ihr]; rfl
          simp [collapseGo, hd] at hz
        | w :: ws =>
          rw [hsp] at ihr
          simp [joinSpace, ihr]

theorem joinSpace_pySplitWs (s : List Char) :
    joinSpace (pySplitWs s) = collapseWsSpec s :=
  joinSpace_pySplitWsGo s.length s (Nat.le_refl _)

theorem norm_job_eq_amended (job : Option String) :
    norm_job job = norm_job_spec_amended job := by
  match job with
  | none => rfl
  | some j =>
    simp only [norm_job, norm_job_spec_amended]
    by_cases hs : pyStrip (fun c => c == ',') (pyStrip isPyWs j.data) = []
    · rw [if_pos hs, hs]
      rfl
    · rw [if_neg hs, joinSpace_pySplitWs]

example : norm_job (some "  ARA3A,  ") = "ara3a" := by decide

example : norm_job (some ",ARA3A") = "ara3a" := by decide

example : norm_job_spec (some ",ARA3A") = ",ara3a" := by decide

example : normalize_trucks "125126" = "125, 126" := by decide

example : normalize_trucks "ABC123" = "ABC123" := by decide

example : normalize_trucks "12AB34CD" = "12AB, 34CD" := by decide

example : normalize_trucks "000126" = "000126" := by decide

theorem comma_mem_joinCS (p1 p2 : List Char) (ps : List (List Char)) :
    ',' ∈ joinCS (p1 :: p2 :: ps) := by
  show ',' ∈ p1 ++ ',' :: ' ' :: joinCS (p2 :: ps)
  exact List.mem_append_right _ (List.mem_cons_self _ _)

theorem chunksGo_cons (fuel w : Nat) (s : List Char) (hs : s ≠ []) (hf : 1 ≤ fuel) :
    ∃ p ps, chunksGo fuel w s = p :: ps := by
  match fuel, s with
  | 0, _ => omega
  | fuel + 1, [] => exact absurd rfl hs
  | fuel + 1, c :: cs => exact ⟨_, _, rfl⟩

theorem chunksBy_two (w : Nat) (s : List Char) (hw : 1 ≤ w)
    (hdvd : s.length % w = 0) (hquot : 2 ≤ s.length / w) :
    ∃ p1 p2 ps, chunksBy w s = p1 :: p2 :: ps := by
  have hlen : 2 * w ≤ s.length := by
    have h1 := Nat.div_add_mod s.length w
    have h2 : 2 * w ≤ (s.length / w) * w := Nat.mul_le_mul_right w hquot
    have h3 : s.length / w * w = w * (s.length / w) := Nat.mul_comm _ _
    omega
  cases s with
  | nil =>
    exfalso
    simp at hlen
    omega
  | cons c cs =>
    have hstep : chunksBy w (c :: cs) =
        (c :: cs).take w :: chunksGo cs.length w ((c :: cs).drop w) := by
      simp [chunksBy, chunksGo]
    have hd : ((c :: cs).drop w) ≠ [] := by
      intro hnil
      have hlend : ((c :: cs).drop w).length = (c :: cs).length - w :=
        List.length_drop _ _
      rw [hnil] at hlend
      simp at hlend
      simp at hlen
      omega
    have hn : 1 ≤ cs.length := by
      simp at hlen
      omega
    obtain ⟨p, ps, hps⟩ := chunksGo_cons cs.length w ((c :: cs).drop w) hd hn
    exact ⟨_, p, ps, by rw [hstep, hps]⟩

theorem segTry_eq_some {s : List Char} {w : Nat} {r : List Char}
    (h : segTry s w = some r) : segOK s w = true ∧ r = joinCS (chunksBy w s) := by
  unfold segTry at h
  by_cases hOK : segOK s w = true
  · rw [if_pos hOK] at h
    exact ⟨hOK, (Option.some_inj.mp h).symm⟩
  · rw [if_neg hOK] at h
    exact absurd h (by simp)

/-- Every modified output of `_normalize_trucks` is a comma+space join of at
least two groups; anything else is returned unchanged. -/
theorem normalize_trucks_chars_cases (s : List Char) :
    normalize_trucks_chars s = s ∨
      ∃ p1 p2 ps, normalize_trucks_chars s = joinCS (p1 :: p2 :: ps) := by
  unfold normalize_trucks_chars
  by_cases h0 : s.isEmpty
  · rw [if_pos h0]; exact Or.inl rfl
  · rw [if_neg h0]
    by_cases h1 : ([',', ' ', '/', '-'].any fun d => s.contains d) = true
    · rw [if_pos h1]; exact Or.inl rfl
    · rw [if_neg h1]
      have hseg : ∀ w r, segTry s w = some r →
          ∃ p1 p2 ps, r = joinCS (p1 :: p2 :: ps) := by
        intro w r hr
        obtain ⟨hOK, hrj⟩ := segTry_eq_some hr
        unfold segOK at hOK
        have h3 := hOK
        simp only [Bool.and_eq_true, beq_iff_eq, decide_eq_true_eq] at h3
        obtain ⟨⟨hmod, hquot⟩, -⟩ := h3
        have hw : 1 ≤ w := by
          by_contra hw
          have hw0 : w = 0 := by omega
          subst hw0
          simp at hquot
        obtain ⟨p1, p2, ps, hc⟩ := chunksBy_two w s hw hmod hquot
        exact ⟨p1, p2, ps, by rw [hrj, hc]⟩
      cases hs : (if s.all Char.isDigit && 6 ≤ s.length then
          (segTry s 3).orElse fun _ => (segTry s 4).orElse fun _ => segTry s 2
        else none) with
      | some r =>
        refine Or.inr ?_
        by_cases hd : (s.all Char.isDigit && 6 ≤ s.length) = true
        · rw [if_pos hd] at hs
          rcases h3 : segTry s 3 with - | r3
          · rcases h4 : segTry s 4 with - | r4
            · rcases h2 : segTry s 2 with - | r2
              · simp [Option.orElse, h3, h4, h2] at hs
              · have hr : r = r2 := by
                  simp [Option.orElse, h3, h4, h2] at hs
                  exact hs.symm
                subst hr
                exact hseg 2 r h2
            · have hr : r = r4 := by
                simp [Option.orElse, h3, h4] at hs
                exact hs.symm
              subst hr
              exact hseg 4 r h4
          · have hr : r = r3 := by
              simp [Option.orElse, h3] at hs
              exact hs.symm
            subst hr
            exact hseg 3 r h3
        · rw [if_neg hd] at hs
          exact absurd hs (by simp)
      | none =>
        by_cases ht : (1 < (findTokens s).length &&
            decide ((findTokens s).flatten = s)) = true
        · rw [if_pos ht]
          simp only [Bool.and_eq_true, decide_eq_true_eq] at ht
          obtain ⟨hlen, -⟩ := ht
          match htk : findTokens s with
          | [] => rw [htk] at hlen; simp at hlen
          | [t] => rw [htk] at hlen; simp at hlen
          | t1 :: t2 :: ts => exact Or.inr ⟨t1, t2, ts, rfl⟩
        · rw [if_neg ht]
          exact Or.inl rfl

/-- A string containing one of the four delimiters is returned unchanged. -/
theorem normalize_trucks_chars_delim (s : List Char)
    (h : (([',', ' ', '/', '-'] : List Char).any fun d => s.contains d) = true) :
    normalize_trucks_chars s = s := by
  have hne : s.isEmpty = false := by
    cases s with
    | nil => simp at h
    | cons c cs => rfl
  unfold normalize_trucks_chars
  rw [hne]
  simp only [Bool.false_eq_true, if_false]
  rw [if_pos h]

theorem normalize_trucks_chars_idem (s : List Char) :
    normalize_trucks_chars (normalize_trucks_chars s) = normalize_trucks_chars s := by
  rcases normalize_trucks_chars_cases s with h | ⟨p1, p2, ps, h⟩
  · rw [h, h]
  · rw [h]
    apply normalize_trucks_chars_delim
    have hmem : ',' ∈ joinCS (p1 :: p2 :: ps) := comma_mem_joinCS p1 p2 ps
    have hcont : (joinCS (p1 :: p2 :: ps)).contains ',' = true := by
      rw [List.contains_eq_any_beq]
      rw [List.any_eq_true]
      exact ⟨',', hmem, by simp⟩
    simp only [List.any_eq_true]
    exact ⟨',', by simp, hcont⟩

/-- Unfolding of `_normalize_trucks` once the empty and delimiter guards are
known to fail. -/
theorem normalize_trucks_chars_core (s : List Char) (hne : s.isEmpty = false)
    (hdel : (([',', ' ', '/', '-'] : List Char).any fun d => s.contains d) = false) :
    normalize_trucks_chars s =
      match (if s.all Char.isDigit && decide (6 <= s.length) then
          (segTry s 3).orElse fun _ => (segTry s 4).orElse fun _ => segTry s 2
        else none) with
      | some r => r
      | none =>
        if 1 < (findTokens s).length && decide ((findTokens s).flatten = s)
        then joinCS (findTokens s) else s := by
  unfold normalize_trucks_chars
  simp only [hne, hdel, Bool.false_eq_true, if_false]

/-- Claim C2 as amended: the delimiter guard, the numeric fixed-width
segmentation policy (width 3, then 4, then 2, first acceptable width wins),
the lossless token-split fallback, and the three concrete examples, with
"12AB34CD" split into "12AB, 34CD" because its token concatenation does
reconstruct the input. -/
theorem c2_truck_normalization :
    (forall s : List Char,
        (([',', ' ', '/', '-'] : List Char).any fun d => s.contains d) = true →
        normalize_trucks_chars s = s)
    ∧ (forall s : List Char, s.isEmpty = false →
        (([',', ' ', '/', '-'] : List Char).any fun d => s.contains d) = false →
        (s.all Char.isDigit && decide (6 <= s.length)) = true →
        (segOK s 3 = true → normalize_trucks_chars s = joinCS (chunksBy 3 s))
        ∧ (segOK s 3 = false → segOK s 4 = true →
            normalize_trucks_chars s = joinCS (chunksBy 4 s))
        ∧ (segOK s 3 = false → segOK s 4 = false → segOK s 2 = true →
            normalize_trucks_chars s = joinCS (chunksBy 2 s)))
    ∧ (forall s : List Char, s.isEmpty = false →
        (([',', ' ', '/', '-'] : List Char).any fun d => s.contains d) = false →
        ((s.all Char.isDigit && decide (6 <= s.length)) = false ∨
          (segOK s 3 = false ∧ segOK s 4 = false ∧ segOK s 2 = false)) →
        ((1 < (findTokens s).length && decide ((findTokens s).flatten = s)) = true →
            normalize_trucks_chars s = joinCS (findTokens s))
        ∧ ((1 < (findTokens s).length && decide ((findTokens s).flatten = s)) = false →
            normalize_trucks_chars s = s))
    ∧ normalize_trucks "125126" = "125, 126"
    ∧ normalize_trucks "ABC123" = "ABC123"
    ∧ normalize_trucks "12AB34CD" = "12AB, 34CD" := by
  refine ⟨?_, ?_, ?_, by decide, by decide, by decide⟩
  · intro s h
    exact normalize_trucks_chars_delim s h
  · intro s hne hdel hd
    refine ⟨?_, ?_, ?_⟩
    · intro h3
      rw [normalize_trucks_chars_core s hne hdel, if_pos hd]
      simp [segTry, h3, Option.orElse]
    · intro h3 h4
      rw [normalize_trucks_chars_core s hne hdel, if_pos hd]
      simp [segTry, h3, h4, Option.orElse]
    · intro h3 h4 h2
      rw [normalize_trucks_chars_core s hne hdel, if_pos hd]
      simp [segTry, h3, h4, h2, Option.orElse]
  · intro s hne hdel hno
    have hnone : (if s.all Char.isDigit && decide (6 <= s.length) then
        (segTry s 3).orElse fun _ => (segTry s 4).orElse fun _ => segTry s 2
      else none) = none := by
      rcases hno with hd | ⟨h3, h4, h2⟩
      · rw [if_neg]
        simp [hd]
      · by_cases hd : (s.all Char.isDigit && decide (6 <= s.length)) = true
        · rw [if_pos hd]
          simp [segTry, h3, h4, h2, Option.orElse]
        · rw [if_neg hd]
    refine ⟨?_, ?_⟩
    · intro ht
      rw [normalize_trucks_chars_core s hne hdel, hnone]
      simp only [ht, if_true]
    · intro ht
      rw [normalize_trucks_chars_core s hne hdel, hnone]
      simp only [ht, Bool.false_eq_true, if_false]

/-- Witness for C2: the numeric width-3 branch fires on "125126". -/
theorem c2_truck_normalization_witness :
    normalize_trucks_chars ("125126".data) = joinCS (chunksBy 3 ("125126".data)) :=
  (c2_truck_normalization.2.1 ("125126".data) (by decide) (by decide)
    (by decide)).1 (by decide)

/-- Counterexample to C2 as stated: the claim says "12AB34CD" is left
unchanged, but the code splits it (its token concatenation reconstructs the
original string). -/
theorem c2_truck_normalization_counterexample :
    normalize_trucks "12AB34CD" = "12AB, 34CD" ∧
      normalize_trucks "12AB34CD" ≠ "12AB34CD" := by
  exact ⟨by decide, by decide⟩

/-- Claim C10: truck-id normalization is idempotent; every modified output is
a comma+space join, and delimited strings are returned unchanged. -/
theorem c10_truck_normalization_idempotent (s : String) :
    normalize_trucks (normalize_trucks s) = normalize_trucks s := by
  unfold normalize_trucks
  show String.mk (normalize_trucks_chars (normalize_trucks_chars s.data)) = _
  rw [normalize_trucks_chars_idem]

/-- Claim C4 as amended: null/empty map to the empty string and the normalizer
is exactly: trim, strip leading AND trailing commas, collapse internal
whitespace runs to single spaces, lower-case; "  ARA3A,  " normalizes to
"ara3a". -/
theorem c4_job_name_normalization :
    norm_job none = ""
    ∧ norm_job (some "") = ""
    ∧ (∀ j : Option String, norm_job j = norm_job_spec_amended j)
    ∧ norm_job (some "  ARA3A,  ") = "ara3a" :=
  ⟨rfl, by decide, norm_job_eq_amended, by decide⟩

/-- Counterexample to C4 as stated: `str.strip(',')` removes leading commas as
well, so on ",ARA3A" the code differs from the trailing-commas-only
description. -/
theorem c4_job_name_normalization_counterexample :
    norm_job (some ",ARA3A") = "ara3a"
    ∧ norm_job_spec (some ",ARA3A") = ",ara3a"
    ∧ norm_job (some ",ARA3A") ≠ norm_job_spec (some ",ARA3A") :=
  ⟨by decide, by decide, by decide⟩

example : alt_new_path "outputs/timesheet_daily_summary.xlsx" =
    "outputs/timesheet_daily_summary_new.xlsx" := by decide

/-- Claim C8 as amended: when the destination is locked the writer retries
under the `_new`-suffixed path, then under a CSV side path, and the path that
was actually written is the one returned. -/
theorem c8_write_contention (locked : String → Bool) (out : String) :
    (locked out = false → summary_write_path locked out = Except.ok out)
    ∧ (locked out = true → locked (alt_new_path out) = false →
        summary_write_path locked out = Except.ok (alt_new_path out))
    ∧ (locked out = true → locked (alt_new_path out) = true →
        locked (alt_csv_path out) = false →
        summary_write_path locked out = Except.ok (alt_csv_path out))
    ∧ (∀ p, summary_write_path locked out = Except.ok p → locked p = false) := by
  refine ⟨?_, ?_, ?_, ?_⟩
  · intro h
    unfold summary_write_path
    rw [if_pos h]
  · intro h1 h2
    unfold summary_write_path
    rw [if_neg (by simp [h1]), if_pos h2]
  · intro h1 h2 h3
    unfold summary_write_path
    rw [if_neg (by simp [h1]), if_neg (by simp [h2]), if_pos h3]
  · intro p hp
    unfold summary_write_path at hp
    by_cases h1 : locked out = false
    · rw [if_pos h1] at hp
      cases hp
      exact h1
    · rw [if_neg h1] at hp
      by_cases h2 : locked (alt_new_path out) = false
      · rw [if_pos h2] at hp
        cases hp
        exact h2
      · rw [if_neg h2] at hp
        by_cases h3 : locked (alt_csv_path out) = false
        · rw [if_pos h3] at hp
          cases hp
          exact h3
        · rw [if_neg h3] at hp
          exact absurd hp (by simp)

/-- Witness for C8 (amended): with exactly the destination path locked, the
writer lands on the `_new` path. -/
theorem c8_write_contention_witness :
    summary_write_path (fun p => p == "outputs/timesheet_daily_summary.xlsx")
        "outputs/timesheet_daily_summary.xlsx" =
      Except.ok "outputs/timesheet_daily_summary_new.xlsx" := by
  have h := (c8_write_contention
      (fun p => p == "outputs/timesheet_daily_summary.xlsx")
      "outputs/timesheet_daily_summary.xlsx").2.1 (by decide) (by decide)
  rw [h]
  decide

/-- Counterexample to C8 as stated: the retry path contains no digit at all,
so it is not timestamp-suffixed; the suffix is the constant "_new". -/
theorem c8_write_contention_counterexample :
    summary_write_path (fun p => p == "outputs/timesheet_daily_summary.xlsx")
        "outputs/timesheet_daily_summary.xlsx" =
      Except.ok "outputs/timesheet_daily_summary_new.xlsx"
    ∧ ("outputs/timesheet_daily_summary_new.xlsx").data.all
        (fun c => !c.isDigit) = true :=
  ⟨by decide, by decide⟩

example : regexSearchMDY ("9/7/25".data) = some (9, 7, some 25) := by decide

example : regexSearchMDY ("9/8".data) = some (9, 8, none) := by decide

example : regexSearchMDY ("Mon 10/13/2025".data) = some (10, 13, some 2025) := by decide

theorem parse_date_label_pd (pdParse : String → Option PyDate)
    (duParse : Nat → String → Option PyDate) (nowYear : Nat)
    (s : String) (dt : PyDate) (hne : String.mk (pyStrip isPyWs s.data) ≠ "")
    (hpd : pdParse (String.mk (pyStrip isPyWs s.data)) = some dt) :
    parse_date_label pdParse duParse nowYear (Cell.str s) = some dt := by
  simp only [parse_date_label]
  rw [if_neg hne, hpd]

theorem parse_date_label_2digit (pdParse : String → Option PyDate)
    (duParse : Nat → String → Option PyDate) (nowYear : Nat)
    (s : String) (mon day yr : Nat) (dt : PyDate)
    (hne : String.mk (pyStrip isPyWs s.data) ≠ "")
    (hpd : pdParse (String.mk (pyStrip isPyWs s.data)) = none)
    (hre : regexSearchMDY (String.mk (pyStrip isPyWs s.data)).data =
      some (mon, day, some yr))
    (hlt : yr < 100)
    (hval : mkValidDate (yr + 2000) mon day = some dt) :
    parse_date_label pdParse duParse nowYear (Cell.str s) = some dt := by
  simp only [parse_date_label]
  rw [if_neg hne, hpd, hre]
  simp [hlt, hval]

theorem parse_date_label_noyear (pdParse : String → Option PyDate)
    (duParse : Nat → String → Option PyDate) (nowYear : Nat)
    (s : String) (mon day : Nat) (dt : PyDate)
    (hne : String.mk (pyStrip isPyWs s.data) ≠ "")
    (hpd : pdParse (String.mk (pyStrip isPyWs s.data)) = none)
    (hre : regexSearchMDY (String.mk (pyStrip isPyWs s.data)).data =
      some (mon, day, none))
    (hval : mkValidDate nowYear mon day = some dt) :
    parse_date_label pdParse duParse nowYear (Cell.str s) = some dt := by
  simp only [parse_date_label]
  rw [if_neg hne, hpd, hre]
  simp [hval]

/-- Claim C7: the resolver applies its strategies in order with first success
winning; in the month-day-year pattern a 2-digit year gets 2000 added and an
absent year is replaced by the default (current) year; "9/7/25" resolves to
2025-09-07 whenever the general-purpose text parser either fails on it or
itself returns that date (real pandas does the latter). -/
theorem c7_date_resolver (pdParse : String → Option PyDate)
    (duParse : Nat → String → Option PyDate) (nowYear : Nat) :
    (∀ y m d, parse_date_label pdParse duParse nowYear (Cell.dateVal y m d) =
        some ⟨y, m, d⟩)
    ∧ (∀ s dt, String.mk (pyStrip isPyWs s.data) ≠ "" →
        pdParse (String.mk (pyStrip isPyWs s.data)) = some dt →
        parse_date_label pdParse duParse nowYear (Cell.str s) = some dt)
    ∧ (∀ s mon day yr dt, String.mk (pyStrip isPyWs s.data) ≠ "" →
        pdParse (String.mk (pyStrip isPyWs s.data)) = none →
        regexSearchMDY (String.mk (pyStrip isPyWs s.data)).data =
          some (mon, day, some yr) →
        yr < 100 →
        mkValidDate (yr + 2000) mon day = some dt →
        parse_date_label pdParse duParse nowYear (Cell.str s) = some dt)
    ∧ (∀ s mon day dt, String.mk (pyStrip isPyWs s.data) ≠ "" →
        pdParse (String.mk (pyStrip isPyWs s.data)) = none →
        regexSearchMDY (String.mk (pyStrip isPyWs s.data)).data =
          some (mon, day, none) →
        mkValidDate nowYear mon day = some dt →
        parse_date_label pdParse duParse nowYear (Cell.str s) = some dt)
    ∧ ((pdParse "9/7/25" = none ∨ pdParse "9/7/25" = some ⟨2025, 9, 7⟩) →
        parse_date_label pdParse duParse nowYear (Cell.str "9/7/25") =
          some ⟨2025, 9, 7⟩) := by
  refine ⟨fun y m d => rfl,
    fun s dt hne hpd => parse_date_label_pd pdParse duParse nowYear s dt hne hpd,
    fun s mon day yr dt hne hpd hre hlt hval =>
      parse_date_label_2digit pdParse duParse nowYear s mon day yr dt hne hpd hre hlt hval,
    fun s mon day dt hne hpd hre hval =>
      parse_date_label_noyear pdParse duParse nowYear s mon day dt hne hpd hre hval,
    ?_⟩
  intro h
  have hstrip : String.mk (pyStrip isPyWs ("9/7/25".data)) = "9/7/25" := by decide
  rcases h with h | h
  · refine parse_date_label_2digit pdParse duParse nowYear "9/7/25" 9 7 25
      ⟨2025, 9, 7⟩ (by decide) ?_ (by decide) (by omega) (by decide)
    rw [hstrip]
    exact h
  · refine parse_date_label_pd pdParse duParse nowYear "9/7/25" ⟨2025, 9, 7⟩
      (by decide) ?_
    rw [hstrip]
    exact h

/-- Witness for C7: with a failing general-purpose parser, "9/7/25" still
resolves via the pattern branch to 2025-09-07. -/
theorem c7_date_resolver_witness :
    parse_date_label (fun _ => none) (fun _ _ => none) 2025
      (Cell.str "9/7/25") = some ⟨2025, 9, 7⟩ :=
  (c7_date_resolver (fun _ => none) (fun _ _ => none) 2025).2.2.2.2 (Or.inl rfl)

set_option maxRecDepth 4000 in
example :
    timesheetRecords (fun _ => none) (fun _ _ => none) 2025
      [[Cell.na, Cell.str "9/8/25", Cell.na, Cell.na, Cell.na, Cell.na],
       [Cell.str "Employee", Cell.str "Trk #", Cell.str "Job", Cell.str "H",
        Cell.str "W/S", Cell.str "D"],
       [Cell.str "J Smith", Cell.str "100", Cell.str "ARA3A", Cell.str "8",
        Cell.na, Cell.str "1"]] false =
    Except.ok [{ employee := "J Smith", date := some ⟨2025, 9, 8⟩,
                 job := "ARA3A", hours := 8, drivingHours := 1,
                 trk := Cell.str "100" }] := by with_unfolding_all decide

/-! Stripping an already-stripped string is the identity. -/

theorem dropWhile_idem (p : Char → Bool) (l : List Char) :
    (l.dropWhile p).dropWhile p = l.dropWhile p := by
  cases h : l.dropWhile p with
  | nil => rfl
  | cons c cs =>
    have hc : p c = false := head_dropWhile_false p l c cs h
    rw [List.dropWhile_cons]
    simp [hc]

theorem dropWhile_eq_self (p : Char → Bool) (x : List Char)
    (h : ∀ c cs, x = c :: cs → p c = false) : x.dropWhile p = x := by
  cases x with
  | nil => rfl
  | cons c cs =>
    rw [List.dropWhile_cons]
    simp [h c cs rfl]

theorem pyStripR_head_false (p : Char → Bool) (u : List Char)
    (hu : ∀ c cs, u = c :: cs → p c = false) :
    ∀ c cs, pyStripR p u = c :: cs → p c = false := by
  intro c cs h
  have hsfx : (u.reverse.dropWhile p) <:+ u.reverse := List.dropWhile_suffix p
  have hpre : (u.reverse.dropWhile p).reverse <+: u := by
    have := List.reverse_prefix.mpr hsfx
    rwa [List.reverse_reverse] at this
  unfold pyStripR at h
  rw [h] at hpre
  obtain ⟨t, ht⟩ := hpre
  exact hu c (cs ++ t) (by rw [← ht]; rfl)

theorem pyStrip_idem (p : Char → Bool) (s : List Char) :
    pyStrip p (pyStrip p s) = pyStrip p s := by
  unfold pyStrip pyStripL
  have hhead : ∀ c cs, s.dropWhile p = c :: cs → p c = false :=
    fun c cs h => head_dropWhile_false p s c cs h
  have hhead2 := pyStripR_head_false p (s.dropWhile p) hhead
  rw [dropWhile_eq_self p _ hhead2]
  unfold pyStripR
  rw [List.reverse_reverse, dropWhile_idem]

/-- Facts recorded by a successful `jobText`. -/
theorem jobText_some {g : Grid} {r jc : Nat} {jt : String}
    (h : jobText g r jc = some jt) :
    jt.data ≠ [] ∧ is_placeholder_job (some jt) = false ∧
      String.mk (pyStrip isPyWs jt.data) = jt := by
  unfold jobText at h
  by_cases h0 : isNa (getCell g r jc) = true
  · rw [if_pos h0] at h
    exact absurd h (by simp)
  · rw [if_neg h0] at h
    simp only at h
    by_cases h1 : (!(String.mk (pyStrip isPyWs (pyStrCell (getCell g r jc)).data)).data.isEmpty &&
        !(is_placeholder_job (some (String.mk (pyStrip isPyWs
          (pyStrCell (getCell g r jc)).data))))) = true
    · rw [if_pos h1] at h
      have hjt := Option.some_inj.mp h
      subst hjt
      simp only [Bool.and_eq_true, Bool.not_eq_eq_eq_not, Bool.not_true] at h1
      obtain ⟨hne, hph⟩ := h1
      refine ⟨?_, hph, ?_⟩
      · intro hcontra
        rw [show (String.mk (pyStrip isPyWs (pyStrCell (getCell g r jc)).data)).data =
            pyStrip isPyWs (pyStrCell (getCell g r jc)).data from rfl] at hcontra
        rw [hcontra] at hne
        simp at hne
      · rw [show (String.mk (pyStrip isPyWs (pyStrCell (getCell g r jc)).data)).data =
            pyStrip isPyWs (pyStrCell (getCell g r jc)).data from rfl, pyStrip_idem]
    · rw [if_neg h1] at h
      exact absurd h (by simp)

/-- The per-cell emission property: every record produced by `empRecord` has
a non-empty, non-placeholder job and at least one non-zero hours figure (the
work hours being the stored hours minus the driving contribution). -/
theorem empRecord_some {g : Grid} {incl : Bool} {theDate : Option PyDate}
    {day jc hc : Nat} {dcOpt : Option Nat} {r : Nat} {rec : TSRec}
    (h : empRecord g incl theDate day jc hc dcOpt r = some rec) :
    rec.job ≠ ""
    ∧ is_placeholder_job (some rec.job) = false
    ∧ (rec.hours - (if incl then rec.drivingHours else 0) ≠ 0 ∨
        rec.drivingHours ≠ 0) := by
  unfold empRecord at h
  by_cases h0 : isNa (getCell g r 0) = true
  · rw [if_pos h0] at h
    exact absurd h (by simp)
  · rw [if_neg h0] at h
    by_cases h1 : ((empText g r).data.isEmpty ||
        "total".data.isPrefixOf (pyLower (empText g r).data)) = true
    · rw [if_pos h1] at h
      exact absurd h (by simp)
    · rw [if_neg h1] at h
      cases hjt : jobText g r jc with
      | none =>
        simp only [hjt] at h
        exact absurd h (by simp)
      | some jt =>
        simp only [hjt] at h
        by_cases hg : (parseHours (getCell g r hc) == 0 &&
            driveHours g r dcOpt == 0) = true
        · rw [if_pos hg] at h
          exact absurd h (by simp)
        · rw [if_neg hg] at h
          have hrec := (Option.some_inj.mp h).symm
          obtain ⟨hne, hph, hidem⟩ := jobText_some hjt
          simp only [Bool.and_eq_true, beq_iff_eq, not_and] at hg
          refine ⟨?_, ?_, ?_⟩
          · rw [hrec]
            simp only
            rw [hidem]
            intro hcontra
            apply hne
            rw [show jt.data = (jt : String).data from rfl, hcontra]
          · rw [hrec]
            simp only
            rw [hidem]
            exact hph
          · rw [hrec]
            simp only
            rw [add_sub_cancel_right]
            by_cases hw : parseHours (getCell g r hc) = 0
            · exact Or.inr (hg hw)
            · exact Or.inl hw

/-- Membership transport through `List.mapM` over `Except`. -/
theorem mapM_ok_mem {α β : Type} {f : α → Except String β} :
    ∀ {xs : List α} {ys : List β}, xs.mapM f = Except.ok ys →
      ∀ y ∈ ys, ∃ x ∈ xs, f x = Except.ok y := by
  intro xs
  induction xs with
  | nil =>
    intro ys h y hy
    simp only [List.mapM_nil] at h
    have : ([] : List β) = ys := by
      simpa [pure, Except.pure] using h
    subst this
    simp at hy
  | cons x xs ih =>
    intro ys h y hy
    rw [List.mapM_cons] at h
    cases hfx : f x with
    | error e =>
      rw [hfx] at h
      simp [Bind.bind, Except.bind] at h
    | ok z =>
      rw [hfx] at h
      cases hrest : xs.mapM f with
      | error e =>
        rw [hrest] at h
        simp [Bind.bind, Except.bind] at h
      | ok zs =>
        rw [hrest] at h
        have hys : z :: zs = ys := by
          simpa [Bind.bind, Except.bind, pure, Except.pure] using h
        subst hys
        rcases List.mem_cons.mp hy with hz | hmem
        · exact ⟨x, List.mem_cons_self x xs, by rw [hfx, hz]⟩
        · obtain ⟨x0, hx0, hfx0⟩ := ih hrest y hmem
          exact ⟨x0, List.mem_cons_of_mem x hx0, hfx0⟩

/-- Claim C3: a labor record is emitted only if the job text is present and
not a placeholder and at least one of work hours (stored hours minus the
driving contribution) or driving hours is non-zero; in particular a record
with zero work and zero driving hours is never emitted. -/
theorem c3_labor_record_emission (pdP : String → Option PyDate)
    (duP : Nat → String → Option PyDate) (ny : Nat) (g : Grid) (incl : Bool)
    (recs : List TSRec)
    (hok : timesheetRecords pdP duP ny g incl = Except.ok recs) :
    ∀ rec ∈ recs,
      rec.job ≠ ""
      ∧ is_placeholder_job (some rec.job) = false
      ∧ (rec.hours - (if incl then rec.drivingHours else 0) ≠ 0 ∨
          rec.drivingHours ≠ 0) := by
  intro rec hrec
  unfold timesheetRecords at hok
  cases hfind : findHeaderRow g with
  | none =>
    simp only [hfind] at hok
    exact absurd hok (by simp)
  | some hdr =>
    simp only [hfind] at hok
    by_cases hdays : (day_start_cols (rowLabels g hdr)).isEmpty = true
    · rw [if_pos hdays] at hok
      exact absurd hok (by simp)
    · rw [if_neg hdays] at hok
      cases hmap : List.mapM (blockRecords pdP duP ny g (rowLabels g hdr)
          (if 0 < hdr then some (hdr - 1) else none) (first_emp_row g hdr) incl)
          (day_start_cols (rowLabels g hdr)) with
      | error e =>
        simp only [hmap] at hok
        exact absurd hok (by simp)
      | ok ls =>
        simp only [hmap] at hok
        by_cases hflat : ls.flatten.isEmpty = true
        · rw [if_pos hflat] at hok
          exact absurd hok (by simp)
        · rw [if_neg hflat] at hok
          have hrecs : ls.flatten = recs := Except.ok.inj hok
          subst hrecs
          obtain ⟨blk, hblk, hrecblk⟩ := List.mem_flatten.mp hrec
          obtain ⟨day, hday, hbr⟩ := mapM_ok_mem hmap blk hblk
          unfold blockRecords at hbr
          cases hcols : blockCols (rowLabels g hdr) day with
          | mk jcOpt rest =>
            cases jcOpt with
            | none =>
              simp only [hcols] at hbr
              have : ([] : List TSRec) = blk := Except.ok.inj hbr
              rw [← this] at hrecblk
              simp at hrecblk
            | some jc =>
              cases rest with
              | mk hcOpt dcOpt =>
                cases hcOpt with
                | none =>
                  simp only [hcols] at hbr
                  have : ([] : List TSRec) = blk := Except.ok.inj hbr
                  rw [← this] at hrecblk
                  simp at hrecblk
                | some hc =>
                  simp only [hcols] at hbr
                  cases hbd : blockDate pdP duP ny g
                      (if 0 < hdr then some (hdr - 1) else none) day with
                  | error e =>
                    simp only [hbd] at hbr
                    exact absurd hbr (by simp)
                  | ok theDate =>
                    simp only [hbd] at hbr
                    have hblk' : (List.range' (first_emp_row g hdr)
                        (nRows g - first_emp_row g hdr)).filterMap
                        (empRecord g incl theDate day jc hc dcOpt) = blk :=
                      Except.ok.inj hbr
                    rw [← hblk'] at hrecblk
                    obtain ⟨r, hr, hemp⟩ := List.mem_filterMap.mp hrecblk
                    exact empRecord_some hemp

set_option maxRecDepth 4000 in
/-- Witness for C3: the record emitted from a one-employee grid satisfies the
emission property. -/
theorem c3_labor_record_emission_witness :
    c3SampleRec.job ≠ ""
    ∧ is_placeholder_job (some c3SampleRec.job) = false
    ∧ (c3SampleRec.hours - (if false then c3SampleRec.drivingHours else 0) ≠ 0 ∨
        c3SampleRec.drivingHours ≠ 0) :=
  c3_labor_record_emission (fun _ => none) (fun _ _ => none) 2025
    [[Cell.na, Cell.str "9/8/25", Cell.na, Cell.na, Cell.na, Cell.na],
     [Cell.str "Employee", Cell.str "Trk #", Cell.str "Job", Cell.str "H",
      Cell.str "W/S", Cell.str "D"],
     [Cell.str "J Smith", Cell.str "100", Cell.str "ARA3A", Cell.str "8",
      Cell.na, Cell.str "1"]] false
    [c3SampleRec]
    (by with_unfolding_all decide)
    c3SampleRec
    (List.mem_singleton.mpr rfl)

set_option maxRecDepth 8000 in
example : ratioGE "abcdef1".data "abcdef".data = true := by decide

set_option maxRecDepth 8000 in
example : ratioGE "xyz".data "abcdef".data = false := by decide

/-! Lemmas about the fuzzy mapping. -/

theorem alookup_fuzzyMapping (tsp : List PrepTS) (jsp : List PrepJS)
    (d : Nat) (k : String) :
    alookup (fuzzyMapping tsp jsp) (d, k) =
      if tsp.any (fun row => row.date == d && row.canon == k)
      then fuzzyCandidate jsp d k else none := by
  induction tsp with
  | nil => simp [fuzzyMapping, alookup]
  | cons row rest ih =>
    unfold fuzzyMapping
    by_cases hrow : ((row.date == d) && (row.canon == k)) = true
    · have hd : row.date = d := by
        have := hrow
        simp only [Bool.and_eq_true, beq_iff_eq] at this
        exact this.1
      have hk : row.canon = k := by
        have := hrow
        simp only [Bool.and_eq_true, beq_iff_eq] at this
        exact this.2
      cases hc : fuzzyCandidate jsp row.date row.canon with
      | none =>
        rw [ih]
        rw [← hd, ← hk, hc]
        simp [List.any_cons, hrow, hd, hk]
      | some c =>
        unfold alookup
        rw [if_pos (by rw [hd, hk])]
        rw [← hd, ← hk, hc]
        simp [List.any_cons, hrow]
    · have hne : ¬((d, k) = (row.date, row.canon)) := by
        intro hcontra
        apply hrow
        simp only [Prod.mk.injEq] at hcontra
        simp [hcontra.1, hcontra.2]
      cases hc : fuzzyCandidate jsp row.date row.canon with
      | none =>
        rw [ih]
        simp [List.any_cons, hrow]
      | some c =>
        unfold alookup
        rw [if_neg hne, ih]
        simp [List.any_cons, hrow]

theorem fuzzyMapping_nil {tsp : List PrepTS} {jsp : List PrepJS}
    (h : fuzzyMapping tsp jsp = []) :
    ∀ row ∈ tsp, fuzzyCandidate jsp row.date row.canon = none := by
  induction tsp with
  | nil => intro row hrow; simp at hrow
  | cons r rest ih =>
    intro row hrow
    unfold fuzzyMapping at h
    cases hc : fuzzyCandidate jsp r.date r.canon with
    | some c => rw [hc] at h; simp at h
    | none =>
      rw [hc] at h
      rcases List.mem_cons.mp hrow with hr | hmem
      · rw [hr]; exact hc
      · exact ih h row hmem

theorem fuzzyApply_eq_map (tsp : List PrepTS) (jsp : List PrepJS) :
    fuzzyApply tsp jsp = tsp.map (remapRow jsp) := by
  unfold fuzzyApply
  by_cases he : (fuzzyMapping tsp jsp).isEmpty = true
  · rw [if_pos he]
    have hnil : fuzzyMapping tsp jsp = [] := by
      cases h : fuzzyMapping tsp jsp with
      | nil => rfl
      | cons a t => rw [h] at he; simp at he
    have hnone := fuzzyMapping_nil hnil
    symm
    have : ∀ row ∈ tsp, remapRow jsp row = id row := by
      intro row hrow
      unfold remapRow
      rw [hnone row hrow]
      rfl
    rw [List.map_congr_left this, List.map_id]
  · rw [if_neg he]
    apply List.map_congr_left
    intro row hrow
    rw [alookup_fuzzyMapping]
    have hany : tsp.any (fun r => r.date == row.date && r.canon == row.canon) = true := by
      rw [List.any_eq_true]
      exact ⟨row, hrow, by simp⟩
    rw [if_pos hany]
    rfl

/-! Lemmas about `get_close_matches2`. -/

theorem gcm_singleton (w : String) (cands : List String) (c : String)
    (hf : cands.filter (fun x => ratioGE x.data w.data) = [c]) :
    get_close_matches2 w cands = [c] := by
  unfold get_close_matches2
  rw [hf]
  rfl

theorem gcm_two_le (w : String) (cands : List String)
    (h2 : 2 ≤ (cands.filter (fun x => ratioGE x.data w.data)).length) :
    (get_close_matches2 w cands).length = 2 := by
  unfold get_close_matches2
  rw [List.length_take, List.length_insertionSort]
  omega

theorem gcm_eq_singleton_iff (w : String) (cands : List String) (c : String)
    (hg : get_close_matches2 w cands = [c]) :
    cands.filter (fun x => ratioGE x.data w.data) = [c] := by
  unfold get_close_matches2 at hg
  have hperm : List.Perm (List.insertionSort (closeBefore w.data)
      (cands.filter (fun x => ratioGE x.data w.data)))
      (cands.filter (fun x => ratioGE x.data w.data)) :=
    List.perm_insertionSort _ _
  cases hs : List.insertionSort (closeBefore w.data)
      (cands.filter (fun x => ratioGE x.data w.data)) with
  | nil => rw [hs] at hg; simp at hg
  | cons a t =>
    cases t with
    | nil =>
      rw [hs] at hg
      simp at hg
      rw [hs] at hperm
      rw [hg] at hperm
      exact List.perm_singleton.mp hperm.symm
    | cons b t2 =>
      rw [hs] at hg
      simp [List.take] at hg

/-! Lemmas about `fuzzyCandidate`. -/

theorem fuzzyCandidate_unique (jsp : List PrepJS) (d : Nat) (k c : String)
    (hne : hasExact jsp d k = false)
    (hf : (byDate jsp d).filter (fun x => ratioGE x.data k.data) = [c]) :
    fuzzyCandidate jsp d k = some c := by
  unfold fuzzyCandidate
  rw [hne]
  simp only [Bool.false_eq_true, if_false]
  cases hbd : byDate jsp d with
  | nil => rw [hbd] at hf; simp at hf
  | cons b bs =>
    rw [hbd] at hf
    simp only
    rw [gcm_singleton k (b :: bs) c hf]

theorem fuzzyCandidate_ambiguous (jsp : List PrepJS) (d : Nat) (k : String)
    (hne : hasExact jsp d k = false)
    (h2 : 2 ≤ ((byDate jsp d).filter (fun x => ratioGE x.data k.data)).length) :
    fuzzyCandidate jsp d k = none := by
  unfold fuzzyCandidate
  rw [hne]
  simp only [Bool.false_eq_true, if_false]
  cases hbd : byDate jsp d with
  | nil => rfl
  | cons b bs =>
    rw [hbd] at h2
    simp only
    have hlen := gcm_two_le k (b :: bs) h2
    cases hg : get_close_matches2 k (b :: bs) with
    | nil => rfl
    | cons x xs =>
      cases xs with
      | nil => rw [hg] at hlen; simp at hlen
      | cons y ys => rfl

theorem fuzzyCandidate_only_if (jsp : List PrepJS) (d : Nat) (k c : String)
    (h : fuzzyCandidate jsp d k = some c) :
    (byDate jsp d).filter (fun x => ratioGE x.data k.data) = [c] := by
  unfold fuzzyCandidate at h
  by_cases he : hasExact jsp d k = true
  · rw [if_pos he] at h
    exact absurd h (by simp)
  · rw [if_neg he] at h
    cases hbd : byDate jsp d with
    | nil => rw [hbd] at h; simp at h
    | cons b bs =>
      rw [hbd] at h
      simp only at h
      cases hg : get_close_matches2 k (b :: bs) with
      | nil => rw [hg] at h; simp at h
      | cons x xs =>
        cases xs with
        | nil =>
          rw [hg] at h
          simp at h
          rw [← h]
          exact gcm_eq_singleton_iff k (b :: bs) x hg
        | cons y ys => rw [hg] at h; simp at h

theorem fuzzyMapping_eq_nil {tsp : List PrepTS} {jsp : List PrepJS}
    (h : ∀ row ∈ tsp, fuzzyCandidate jsp row.date row.canon = none) :
    fuzzyMapping tsp jsp = [] := by
  induction tsp with
  | nil => rfl
  | cons r rest ih =>
    unfold fuzzyMapping
    rw [h r (List.mem_cons_self r rest)]
    exact ih (fun row hrow => h row (List.mem_cons_of_mem r hrow))

theorem zip_map_self {α β : Type} (f : α → β) :
    ∀ (l : List α), ∀ q ∈ (l.map f).zip l, ∃ x ∈ l, q = (f x, x) := by
  intro l
  induction l with
  | nil => intro q hq; simp at hq
  | cons a t ih =>
    intro q hq
    simp only [List.map_cons, List.zip_cons_cons] at hq
    rcases List.mem_cons.mp hq with h | h
    · exact ⟨a, List.mem_cons_self a t, h⟩
    · obtain ⟨x, hx, hq'⟩ := ih q h
      exact ⟨x, List.mem_cons_of_mem a hx, hq'⟩

/-- Claim C9: the fuzzy step returns the job-sheet table unchanged, keeps
every timesheet row's base fields, and changes a left canonical key only to
the accepted remap for that (date, key). -/
theorem c9_fuzzy_frame (tsp : List PrepTS) (jsp : List PrepJS) :
    (fuzzyStep true tsp jsp).2 = jsp
    ∧ ((fuzzyStep true tsp jsp).1).map PrepTS.base = tsp.map PrepTS.base
    ∧ ∀ p ∈ ((fuzzyStep true tsp jsp).1).zip tsp,
        p.1.base = p.2.base ∧
        (p.1.canon = p.2.canon ∨
          fuzzyCandidate jsp p.2.date p.2.canon = some p.1.canon) := by
  have hstep : (fuzzyStep true tsp jsp).1 = tsp.map (remapRow jsp) :=
    fuzzyApply_eq_map tsp jsp
  refine ⟨rfl, ?_, ?_⟩
  · rw [hstep, List.map_map]
    apply List.map_congr_left
    intro row hrow
    rfl
  · intro p hp
    rw [hstep] at hp
    obtain ⟨x, hx, hq⟩ := zip_map_self (remapRow jsp) tsp p hp
    subst hq
    refine ⟨rfl, ?_⟩
    unfold remapRow
    cases hc : fuzzyCandidate jsp x.date x.canon with
    | none => left; rfl
    | some c => right; rfl

/-- Claim C5: when every left (date, canonical key) pair has an exact right
match on its date, the fuzzy pass records zero remaps and the pipeline output
is identical with the fuzzy option on or off. -/
theorem c5_exact_match_idempotence (ts : List TSRow) (js : List JSRow)
    (h : ∀ l ∈ ts, ∃ r ∈ js, r.date = l.date ∧
        norm_job (some r.job) = norm_job (some l.job)) :
    fuzzyMapping (ts.map prepTS) (js.map prepJS) = []
    ∧ combine_pipeline true ts js = combine_pipeline false ts js := by
  have hcand : ∀ row ∈ ts.map prepTS,
      fuzzyCandidate (js.map prepJS) row.date row.canon = none := by
    intro row hrow
    obtain ⟨l, hl, hprep⟩ := List.mem_map.mp hrow
    subst hprep
    obtain ⟨r, hr, hd, hk⟩ := h l hl
    unfold fuzzyCandidate
    have hex : hasExact (js.map prepJS) (prepTS l).date (prepTS l).canon = true := by
      unfold hasExact
      rw [List.any_eq_true]
      refine ⟨prepJS r, List.mem_map_of_mem prepJS hr, ?_⟩
      simp [prepJS, prepTS, PrepJS.date, PrepTS.date, hd, hk]
    rw [if_pos hex]
  have hmapnil : fuzzyMapping (ts.map prepTS) (js.map prepJS) = [] :=
    fuzzyMapping_eq_nil hcand
  refine ⟨hmapnil, ?_⟩
  have happ : fuzzyApply (ts.map prepTS) (js.map prepJS) = ts.map prepTS := by
    unfold fuzzyApply
    rw [hmapnil]
    rfl
  unfold combine_pipeline assembled
  rw [show fuzzyStep true (ts.map prepTS) (js.map prepJS) =
    (fuzzyApply (ts.map prepTS) (js.map prepJS), js.map prepJS) from rfl, happ]
  rfl

/-- Witness for C5: in a one-row instance with an exact (date, key) match,
turning fuzzy matching off does not change the output. -/
theorem c5_exact_match_idempotence_witness :
    fuzzyMapping
        ([{ date := 10, job := "ARA3A ", employeeCount := 1, totalHours := 8,
            totalDrivingHours := 0, employees := "J Smith" }].map prepTS)
        ([{ date := 10, job := "ara3a", trucks := "100", description := "",
            concrete := "", concreteYds := "", stone := "",
            stoneLds := "" }].map prepJS) = []
    ∧ combine_pipeline true
        [{ date := 10, job := "ARA3A ", employeeCount := 1, totalHours := 8,
           totalDrivingHours := 0, employees := "J Smith" }]
        [{ date := 10, job := "ara3a", trucks := "100", description := "",
           concrete := "", concreteYds := "", stone := "", stoneLds := "" }] =
      combine_pipeline false
        [{ date := 10, job := "ARA3A ", employeeCount := 1, totalHours := 8,
           totalDrivingHours := 0, employees := "J Smith" }]
        [{ date := 10, job := "ara3a", trucks := "100", description := "",
           concrete := "", concreteYds := "", stone := "", stoneLds := "" }] :=
  c5_exact_match_idempotence _ _ (by decide)

/-- Claim C1: for a left pair (date, key) with no exact right match, a remap
happens exactly when a single right candidate on that date clears the 0.82
cutoff; with two or more acceptable candidates nothing is remapped and the
left row survives the merge with empty job-sheet fields. -/
theorem c1_fuzzy_single_candidate (ts : List TSRow) (js : List JSRow)
    (l : TSRow) (hl : l ∈ ts) :
    (∀ c, hasExact (js.map prepJS) l.date (norm_job (some l.job)) = false →
        (byDate (js.map prepJS) l.date).filter
          (fun x => ratioGE x.data (norm_job (some l.job)).data) = [c] →
        ({ base := l, canon := c } : PrepTS) ∈
          fuzzyApply (ts.map prepTS) (js.map prepJS))
    ∧ (∀ c, fuzzyCandidate (js.map prepJS) l.date (norm_job (some l.job)) = some c →
        (byDate (js.map prepJS) l.date).filter
          (fun x => ratioGE x.data (norm_job (some l.job)).data) = [c])
    ∧ (hasExact (js.map prepJS) l.date (norm_job (some l.job)) = false →
        2 ≤ ((byDate (js.map prepJS) l.date).filter
          (fun x => ratioGE x.data (norm_job (some l.job)).data)).length →
        fuzzyCandidate (js.map prepJS) l.date (norm_job (some l.job)) = none
        ∧ ∃ row ∈ combine_pipeline true ts js,
            row.tsRow = some (prepTS l) ∧ row.jsRow = none) := by
  refine ⟨?_, ?_, ?_⟩
  · intro c hne hf
    rw [fuzzyApply_eq_map]
    have hcand := fuzzyCandidate_unique (js.map prepJS) l.date
      (norm_job (some l.job)) c hne hf
    have hremap : remapRow (js.map prepJS) (prepTS l) = { base := l, canon := c } := by
      unfold remapRow
      rw [show (prepTS l).date = l.date from rfl,
        show (prepTS l).canon = norm_job (some l.job) from rfl, hcand]
      rfl
    rw [← hremap]
    exact List.mem_map_of_mem _ (List.mem_map_of_mem prepTS hl)
  · intro c hc
    exact fuzzyCandidate_only_if (js.map prepJS) l.date (norm_job (some l.job)) c hc
  · intro hne h2
    have hcand : fuzzyCandidate (js.map prepJS) l.date (norm_job (some l.job)) = none :=
      fuzzyCandidate_ambiguous (js.map prepJS) l.date (norm_job (some l.job)) hne h2
    refine ⟨hcand, ?_⟩
    have hrow : remapRow (js.map prepJS) (prepTS l) = prepTS l := by
      unfold remapRow
      rw [show (prepTS l).date = l.date from rfl,
        show (prepTS l).canon = norm_job (some l.job) from rfl, hcand]
      rfl
    have hmem : prepTS l ∈ fuzzyApply (ts.map prepTS) (js.map prepJS) := by
      rw [fuzzyApply_eq_map, ← hrow]
      exact List.mem_map_of_mem _ (List.mem_map_of_mem prepTS hl)
    have hfilter : (js.map prepJS).filter
        (fun r => r.date == (prepTS l).date && r.canon == (prepTS l).canon) = [] := by
      rw [List.filter_eq_nil_iff]
      intro r hr hp
      unfold hasExact at hne
      have := List.any_eq_false.mp hne r hr
      exact this hp
    have hmm : ({ date := (prepTS l).date, canon := (prepTS l).canon,
                  tsRow := some (prepTS l), jsRow := none } : MergedRow) ∈
        mergeOuter (fuzzyApply (ts.map prepTS) (js.map prepJS)) (js.map prepJS) := by
      unfold mergeOuter
      apply List.mem_append_left
      rw [List.mem_flatMap]
      refine ⟨prepTS l, hmem, ?_⟩
      rw [hfilter]
      exact List.mem_singleton.mpr rfl
    refine ⟨finalizeRow ({ date := (prepTS l).date, canon := (prepTS l).canon,
                           tsRow := some (prepTS l), jsRow := none } : MergedRow),
      ?_, rfl, rfl⟩
    unfold combine_pipeline
    rw [List.mem_insertionSort]
    unfold assembled
    rw [show fuzzyStep true (ts.map prepTS) (js.map prepJS) =
      (fuzzyApply (ts.map prepTS) (js.map prepJS), js.map prepJS) from rfl]
    exact List.mem_map_of_mem finalizeRow hmm

/-- Witness for C9: on a one-row left table and empty right table the fuzzy
step leaves everything unchanged. -/
theorem c9_fuzzy_frame_witness :
    (c9Prep, c9Prep).1.base = (c9Prep, c9Prep).2.base
    ∧ ((c9Prep, c9Prep).1.canon = (c9Prep, c9Prep).2.canon ∨
        fuzzyCandidate [] (c9Prep, c9Prep).2.date (c9Prep, c9Prep).2.canon =
          some (c9Prep, c9Prep).1.canon) :=
  (c9_fuzzy_frame [c9Prep] []).2.2 (c9Prep, c9Prep) (by decide)

set_option maxRecDepth 20000 in
/-- Witness for C1: two right keys on the same date both clear the cutoff, so
no remap happens and the left row stays unmatched (empty job-sheet side). -/
theorem c1_fuzzy_single_candidate_witness :
    fuzzyCandidate ([c1JSRow1, c1JSRow2].map prepJS) c1TSRow.date
        (norm_job (some c1TSRow.job)) = none
    ∧ ∃ row ∈ combine_pipeline true [c1TSRow] [c1JSRow1, c1JSRow2],
        row.tsRow = some (prepTS c1TSRow) ∧ row.jsRow = none :=
  (c1_fuzzy_single_candidate [c1TSRow] [c1JSRow1, c1JSRow2] c1TSRow
    (List.mem_singleton.mpr rfl)).2.2 (by decide) (by decide)

/-- Claim C6: the report rows are sorted by case-insensitive job text and
then date, and the sort is stable: for every (job key, date) the rows with
that key appear in the same order as in the unsorted assembly. -/
theorem c6_output_ordering (fuzzy : Bool) (ts : List TSRow) (js : List JSRow) :
    List.Sorted outLE (combine_pipeline fuzzy ts js)
    ∧ ∀ (kk : String) (dd : Nat),
        (combine_pipeline fuzzy ts js).filter
          (fun r => jobSortKey r == kk && r.date == dd) =
        (assembled fuzzy ts js).filter
          (fun r => jobSortKey r == kk && r.date == dd) := by
  constructor
  · exact List.sorted_insertionSort outLE (assembled fuzzy ts js)
  · intro kk dd
    have hpair : ((assembled fuzzy ts js).filter
        (fun r => jobSortKey r == kk && r.date == dd)).Pairwise outLE := by
      apply List.pairwise_of_forall_mem_list
      intro a ha b hb
      have hap := (List.mem_filter.mp ha).2
      have hbp := (List.mem_filter.mp hb).2
      simp only [Bool.and_eq_true, beq_iff_eq] at hap hbp
      unfold outLE outKey
      rw [hap.1, hap.2, hbp.1, hbp.2]
    have hsub : List.Sublist ((assembled fuzzy ts js).filter
        (fun r => jobSortKey r == kk && r.date == dd))
        (List.insertionSort outLE (assembled fuzzy ts js)) :=
      List.sublist_insertionSort hpair (List.filter_sublist _)
    have hself : ((assembled fuzzy ts js).filter
        (fun r => jobSortKey r == kk && r.date == dd)).filter
        (fun r => jobSortKey r == kk && r.date == dd) =
        (assembled fuzzy ts js).filter
          (fun r => jobSortKey r == kk && r.date == dd) :=
      List.filter_eq_self.mpr (fun a ha => (List.mem_filter.mp ha).2)
    have hsub2 := hsub.filter (fun r => jobSortKey r == kk && r.date == dd)
    rw [hself] at hsub2
    have hperm := (List.perm_insertionSort outLE (assembled fuzzy ts js)).filter
      (fun r => jobSortKey r == kk && r.date == dd)
    exact (hsub2.eq_of_length hperm.length_eq.symm).symm

end AmaDaily
